import Mathlib

/-!
Verification of PPI (fuzzy function search).

Shallow embedding of `src/app/src/pygoogle.py`.  Strings are modelled as
`List Char`; Python's `str.split(sep)` (single-character separator, keeping
empty parts), `str.lstrip()`/`str.rstrip()`, `str.join`, `str.replace(c, "")`
and `str.endswith` are modelled by the list functions below.  File-system
reads, JSON (de)serialization and logging are external collaborators; the
cache file `functions.json` is modelled as an `Option (List FunctionType)`
component of an explicit process state, and the parser `ast.parse` as an
`Except`-valued field of a file entry (black boxes per the specification).
-/

namespace PPI

/-- Python `s.split(c)` for a one-character separator, as the pair
(first part, remaining parts).  `pySplit` below assembles the full list:
`n` separators give `n + 1` (possibly empty) parts. -/
def splitOnChar (c : Char) : List Char → List Char × List (List Char)
  | [] => ([], [])
  | x :: xs =>
    let r := splitOnChar c xs
    if x = c then ([], r.1 :: r.2) else (x :: r.1, r.2)

/-- Python `s.split(c)`: always a non-empty list of parts. -/
def pySplit (c : Char) (l : List Char) : List (List Char) :=
  (splitOnChar c l).1 :: (splitOnChar c l).2

/-- Python `sep.join(parts)`. -/
def joinSep (sep : List Char) : List (List Char) → List Char
  | [] => []
  | [x] => x
  | x :: y :: ys => x ++ sep ++ joinSep sep (y :: ys)

/-- Python `s.lstrip()` (no argument: strips whitespace). -/
def ltrim (l : List Char) : List Char := l.dropWhile Char.isWhitespace

/-- Python `s.rstrip()` (no argument: strips whitespace). -/
def rtrim (l : List Char) : List Char := (l.reverse.dropWhile Char.isWhitespace).reverse

/-- Python `s.lstrip().rstrip()` as used in `normalize` (pygoogle.py:89). -/
def pyStrip (l : List Char) : List Char := rtrim (ltrim l)

/-- Python `filename.endswith('py')` (pygoogle.py:110 — note: the suffix the
code tests is `py`, with no dot). -/
def endsWithPy (l : List Char) : Bool :=
  match l.reverse with
  | 'y' :: 'p' :: _ => true
  | _ => false

/-- Python `name.startswith('__')` (pygoogle.py:119). -/
def startsDunder (l : List Char) : Bool :=
  match l with
  | '_' :: '_' :: _ => true
  | _ => false

/-- Modelled from the spec: the external `levenshtein.lev` primitive
(imported at pygoogle.py:8, not part of this repository) is specified as the
unweighted Levenshtein edit distance — substitution, insertion and deletion
each cost 1.  Implemented here by the standard row-by-row dynamic program;
`levGo` produces the tail of the next row given the previous row. -/
def levGo (x : Char) : List Char → List Nat → Nat → List Nat
  | [], _, _ => []
  | bj :: bs, rprev, left =>
    match rprev with
    | d :: rest =>
      let cur := min (min ((rest.headD 0) + 1) (left + 1)) (d + if x = bj then 0 else 1)
      cur :: levGo x bs rest cur
    | [] => []

/-- One row update of the Levenshtein dynamic program. -/
def levRow (x : Char) (b : List Char) (row : List Nat) : List Nat :=
  let first := (row.headD 0) + 1
  first :: levGo x b row first

/-- Modelled from the spec: unweighted Levenshtein distance (see `levGo`). -/
def lev (a b : List Char) : Nat :=
  ((a.foldl (fun row x => levRow x b row) (List.range (b.length + 1))).getLast?).getD 0

/-! ## Data model (pygoogle.py:10-18) -/

/-- The `FunctionType` record (pygoogle.py:18): name, argument names in
declaration order, originating file and 1-based line number. -/
structure FunctionType where
  name : List Char
  args : List (List Char)
  filename : List Char
  line : Nat
deriving DecidableEq, Repr

/-- A node yielded by `ast.walk` (pygoogle.py:117): either an
`ast.FunctionDef` (with declared name, positional argument names in order,
and `lineno`) or any other node kind. -/
inductive AstNode where
  | funcDef (name : List Char) (args : List (List Char)) (lineno : Nat)
  | other
deriving DecidableEq, Repr

instance {ε α : Type} [DecidableEq ε] [DecidableEq α] : DecidableEq (Except ε α) := fun x y =>
  match x, y with
  | .error a, .error b =>
    if h : a = b then .isTrue (by rw [h]) else .isFalse (by simp [h])
  | .ok a, .ok b =>
    if h : a = b then .isTrue (by rw [h]) else .isFalse (by simp [h])
  | .error _, .ok _ => .isFalse (by simp)
  | .ok _, .error _ => .isFalse (by simp)

/-- One path yielded by `glob.iglob(f'{base_folder}/**', recursive=True)`
(pygoogle.py:107): its path, whether `os.path.isfile` holds, and the result
of `ast.parse` on its content (`Except.error` models a `SyntaxError`). -/
structure FileEntry where
  path : List Char
  isFile : Bool
  parsed : Except Unit (List AstNode)
deriving DecidableEq

/-- The file system as seen by `glob.iglob`: the recursive listing obtained
for a given `base_folder`. -/
def FileSystem := List Char → List FileEntry

/-- Process-wide mutable state: the cache file `functions.json`
(`none` = absent) and the single shared list object that is the default
value of `index_folder`'s `folders_to_ignore` parameter (pygoogle.py:93). -/
structure PyState where
  cache : Option (List FunctionType)
  defaultIgnore : List (List Char)
deriving DecidableEq

/-- The constant `STDLIB_IGNORE` (pygoogle.py:20). -/
def STDLIB_IGNORE : List (List Char) :=
  ["test".toList, "site-packages".toList, "lib2to3".toList]

/-! ## Operations (pygoogle.py:50-137) -/

/-- Python `get_signature` (pygoogle.py:50-60) with `file_infos=False`, as called
from `sort` (line 136): the loop builds `"a1, a2, "` and `args[:-2]` removes
the final `", "`, so the rendering is `name(a1, a2)`.  The `file_infos=True`
origin-prefixed form is used only for human display and is not modelled. -/
def get_signature (function : FunctionType) : List Char :=
  function.name ++ '(' :: (joinSep [',', ' '] function.args ++ [')'])

/-- Python `get_function_from_node` (pygoogle.py:63-75) with the default
`abspath=False`, as called from `index_folder` (line 120): `filename` is the
traversal path verbatim. -/
def get_function_from_node (name : List Char) (args : List (List Char)) (lineno : Nat)
    (file_path : List Char) : FunctionType :=
  { name := name, args := args, filename := file_path, line := lineno }

/-- Python `normalize` (pygoogle.py:78-90).  `split('(')` keeps every part; the code
reads parts `[0]` and `[1]` (further parts are dropped), and raises
(`IndexError`, the spec's `MalformedSignature`) when there is no `'('` —
modelled as `none`.  `replace(')', '')` removes every `')'`. -/
def normalize (query : List Char) : Option (List Char) :=
  match pySplit '(' query with
  | name0 :: args0 :: _ =>
    let name := joinSep ['_'] ((pySplit ' ' name0).filter (· ≠ []))
    let args := joinSep [',', ' '] ((pySplit ',' (args0.filter (· ≠ ')'))).map pyStrip)
    some (name ++ ' ' :: '(' :: ' ' :: (args ++ [' ', ')']))
  | _ => none

/-- The AST walk of one parsed file (pygoogle.py:117-121): keep every
`ast.FunctionDef` node whose name does not start with `'__'`. -/
def extract_nodes (nodes : List AstNode) (file_path : List Char) : List FunctionType :=
  nodes.filterMap fun n =>
    match n with
    | .funcDef name args lineno =>
      if startsDunder name then none
      else some (get_function_from_node name args lineno file_path)
    | .other => none

/-- The condition `want_to_continue` (pygoogle.py:110): the path ends in `py` and no
`'/'`-segment of the path (the file's own name included) is in the ignore
list (`set(current_dir) & set(folders_to_ignore)` is empty). -/
def want_to_continue (ign : List (List Char)) (path : List Char) : Prop :=
  endsWithPy path = true ∧ ∀ d ∈ pySplit '/' path, d ∉ ign

instance (ign : List (List Char)) (path : List Char) :
    Decidable (want_to_continue ign path) := by
  unfold want_to_continue; infer_instance

/-- The indexing loop (pygoogle.py:107-121): process entries in traversal
order, extracting from each eligible file; a parse failure aborts the whole
run (the exception propagates, discarding the accumulated list). -/
def scanFiles (ign : List (List Char)) : List FileEntry → Except Unit (List FunctionType)
  | [] => .ok []
  | e :: es =>
    if e.isFile = true ∧ want_to_continue ign e.path then
      match e.parsed with
      | .error err => .error err
      | .ok nodes =>
        match scanFiles ign es with
        | .error err => .error err
        | .ok rest => .ok (extract_nodes nodes e.path ++ rest)
    else scanFiles ign es

/-- Python `index_folder` (pygoogle.py:93-127) on an explicit ignore-list value.
Returns (result, final value of the `folders_to_ignore` list object, final
cache content).  Order of effects mirrors the source: the cache check
(lines 101-102) happens before `folders_to_ignore += STDLIB_IGNORE`
(line 105); `save_json` (line 124) runs only after a fully successful scan,
so a parse error leaves the (absent) cache untouched. -/
def index_folder_core (entries : List FileEntry) (ign_in : List (List Char))
    (cache : Option (List FunctionType)) :
    Except Unit (List FunctionType) × List (List Char) × Option (List FunctionType) :=
  match cache with
  | some c => (.ok c, ign_in, some c)
  | none =>
    let ign := ign_in ++ STDLIB_IGNORE
    match scanFiles ign entries with
    | .error err => (.error err, ign, none)
    | .ok functions => (.ok functions, ign, some functions)

/-- Python `index_folder` at the call boundary: `arg = none` models a call without
an explicit `folders_to_ignore` argument, which uses — and, via the in-place
`+=`, mutates — the single shared default list object held in the state. -/
def index_folder (fs : FileSystem) (base_folder : List Char)
    (arg : Option (List (List Char))) (st : PyState) :
    Except Unit (List FunctionType) × PyState :=
  match arg with
  | some ign0 =>
    let r := index_folder_core (fs base_folder) ign0 st.cache
    (r.1, { cache := r.2.2, defaultIgnore := st.defaultIgnore })
  | none =>
    let r := index_folder_core (fs base_folder) st.defaultIgnore st.cache
    (r.1, { cache := r.2.2, defaultIgnore := r.2.1 })

/-- The scoring loop of `sort` (pygoogle.py:134-136): one `(score, record)`
pair per record, scoring `lev(query, normalize(get_signature(f)))` — note
the query is used exactly as passed.  A normalization failure would
propagate (modelled as `none`); it cannot occur since rendered signatures
always contain `'('`. -/
def scoreList (query : List Char) : List FunctionType → Option (List (Nat × FunctionType))
  | [] => some []
  | f :: fs =>
    match normalize (get_signature f) with
    | none => none
    | some s => (scoreList query fs).map ((lev query s, f) :: ·)

/-- Stable ascending insertion by first component: the new element goes
before the first element whose score is not smaller. -/
def insertLT (x : Nat × FunctionType) : List (Nat × FunctionType) → List (Nat × FunctionType)
  | [] => [x]
  | y :: ys => if y.1 < x.1 then y :: insertLT x ys else x :: y :: ys

/-- Python `sorted(·, key=lambda x: x[0])` (pygoogle.py:137): a stable
ascending sort by score, realized as stable insertion sort (earlier input
elements are inserted after later ones have been sorted, and `insertLT`
places them before equal scores). -/
def isort : List (Nat × FunctionType) → List (Nat × FunctionType)
  | [] => []
  | x :: xs => insertLT x (isort xs)

/-- Python `sort` (pygoogle.py:130-137). -/
def sort (query : List Char) (functions : List FunctionType) :
    Option (List (Nat × FunctionType)) :=
  (scoreList query functions).map isort

/-! ## Lemmas about the string primitives -/

theorem splitOnChar_of_not_mem {c : Char} {l : List Char} (h : c ∉ l) :
    splitOnChar c l = (l, []) := by
  induction l with
  | nil => rfl
  | cons x xs ih =>
    simp only [List.mem_cons, not_or] at h
    simp only [splitOnChar, ih h.2]
    rw [if_neg (fun hh => h.1 hh.symm)]

theorem splitOnChar_append {c : Char} {l1 : List Char} (l2 : List Char) (h : c ∉ l1) :
    splitOnChar c (l1 ++ c :: l2) = (l1, (splitOnChar c l2).1 :: (splitOnChar c l2).2) := by
  induction l1 with
  | nil => simp [splitOnChar]
  | cons x xs ih =>
    simp only [List.mem_cons, not_or] at h
    simp only [List.cons_append, splitOnChar]
    rw [if_neg (fun hh => h.1 hh.symm), List.append_eq, ih h.2]

theorem splitOnChar_not_mem_parts (c : Char) (l : List Char) :
    c ∉ (splitOnChar c l).1 ∧ ∀ p ∈ (splitOnChar c l).2, c ∉ p := by
  induction l with
  | nil => simp [splitOnChar]
  | cons x xs ih =>
    by_cases hx : x = c
    · simp only [splitOnChar, hx, if_pos rfl]
      exact ⟨by simp, by
        intro p hp
        rcases List.mem_cons.mp hp with h | h
        · exact h ▸ ih.1
        · exact ih.2 p h⟩
    · simp only [splitOnChar, if_neg hx]
      refine ⟨?_, ih.2⟩
      intro hc
      rcases List.mem_cons.mp hc with h | h
      · exact hx h.symm
      · exact ih.1 h

theorem mem_of_mem_pySplit {c a : Char} {l : List Char} {p : List Char}
    (hp : p ∈ pySplit c l) (ha : a ∈ p) : a ∈ l := by
  induction l generalizing p with
  | nil =>
    simp only [pySplit, splitOnChar, List.mem_singleton] at hp
    subst hp; exact absurd ha (List.not_mem_nil a)
  | cons x xs ih =>
    by_cases hx : x = c
    · simp only [pySplit, splitOnChar, if_pos hx] at hp
      rcases List.mem_cons.mp hp with h | h
      · subst h; exact absurd ha (List.not_mem_nil a)
      · exact List.mem_cons_of_mem x (ih h ha)
    · simp only [pySplit, splitOnChar, if_neg hx] at hp
      rcases List.mem_cons.mp hp with h | h
      · subst h
        rcases List.mem_cons.mp ha with h' | h'
        · exact h' ▸ List.mem_cons_self x xs
        · exact List.mem_cons_of_mem x (ih (List.mem_cons_self _ _) h')
      · exact List.mem_cons_of_mem x (ih (List.mem_cons_of_mem _ h) ha)

theorem splitOnChar_snd_ne_nil {c : Char} {l : List Char} (h : c ∈ l) :
    (splitOnChar c l).2 ≠ [] := by
  induction l with
  | nil => exact absurd h (List.not_mem_nil c)
  | cons x xs ih =>
    by_cases hx : x = c
    · simp [splitOnChar, hx]
    · simp only [splitOnChar, if_neg hx]
      rcases List.mem_cons.mp h with h' | h'
      · exact absurd h'.symm hx
      · exact ih h'

theorem mem_joinSep {a : Char} {sep : List Char} {ps : List (List Char)}
    (h : a ∈ joinSep sep ps) : (∃ p ∈ ps, a ∈ p) ∨ a ∈ sep := by
  induction ps with
  | nil => exact absurd h (List.not_mem_nil a)
  | cons x xs ih =>
    cases xs with
    | nil =>
      exact Or.inl ⟨x, List.mem_singleton.mpr rfl, h⟩
    | cons y ys =>
      simp only [joinSep, List.append_assoc, List.mem_append] at h
      rcases h with h | h | h
      · exact Or.inl ⟨x, List.mem_cons_self _ _, h⟩
      · exact Or.inr h
      · rcases ih h with ⟨p, hp, hap⟩ | h'
        · exact Or.inl ⟨p, List.mem_cons_of_mem _ hp, hap⟩
        · exact Or.inr h'

theorem rtrim_eq_rdropWhile (l : List Char) :
    rtrim l = List.rdropWhile Char.isWhitespace l := rfl

theorem ltrim_cons_ws {c : Char} (l : List Char) (h : c.isWhitespace = true) :
    ltrim (c :: l) = ltrim l := by
  simp [ltrim, List.dropWhile_cons, h]

theorem rtrim_append_ws {c : Char} (l : List Char) (h : c.isWhitespace = true) :
    rtrim (l ++ [c]) = rtrim l := by
  simp [rtrim, List.reverse_append, List.dropWhile_cons, h]

theorem pyStrip_cons_ws {c : Char} (l : List Char) (h : c.isWhitespace = true) :
    pyStrip (c :: l) = pyStrip l := by
  simp [pyStrip, ltrim_cons_ws l h]

theorem ltrim_append (l1 l2 : List Char) :
    ltrim (l1 ++ l2) = if ltrim l1 = [] then ltrim l2 else ltrim l1 ++ l2 := by
  induction l1 with
  | nil => simp [ltrim]
  | cons x xs ih =>
    by_cases hx : x.isWhitespace = true
    · simpa [ltrim, List.dropWhile_cons, hx] using ih
    · simp [ltrim, List.dropWhile_cons, hx]

theorem pyStrip_append_ws {c : Char} (l : List Char) (h : c.isWhitespace = true) :
    pyStrip (l ++ [c]) = pyStrip l := by
  unfold pyStrip
  rw [ltrim_append]
  by_cases hl : ltrim l = []
  · rw [if_pos hl, hl]
    have h1 : ltrim [c] = [] := by simp [ltrim, List.dropWhile_cons, h]
    rw [h1]
  · rw [if_neg hl, rtrim_append_ws _ h]

theorem rtrim_idem (l : List Char) : rtrim (rtrim l) = rtrim l := by
  rw [rtrim_eq_rdropWhile, rtrim_eq_rdropWhile]
  exact List.rdropWhile_idempotent _ _

theorem dropWhile_head_false {p : Char → Bool} {l : List Char} {y : Char} {ys : List Char}
    (h : List.dropWhile p l = y :: ys) : p y = false := by
  induction l with
  | nil => simp at h
  | cons x xs ih =>
    by_cases hx : p x = true
    · rw [List.dropWhile_cons, if_pos hx] at h
      exact ih h
    · rw [List.dropWhile_cons, if_neg hx] at h
      cases h
      exact Bool.not_eq_true _ |>.mp hx

theorem ltrim_rtrim_ltrim (l : List Char) :
    ltrim (rtrim (ltrim l)) = rtrim (ltrim l) := by
  have hpre : rtrim (ltrim l) <+: ltrim l := by
    rw [rtrim_eq_rdropWhile]
    exact List.rdropWhile_prefix _ _
  obtain ⟨t, ht⟩ := hpre
  rcases E : rtrim (ltrim l) with _ | ⟨y, ys⟩
  · rfl
  · rw [E] at ht
    have ht' : List.dropWhile Char.isWhitespace l = y :: (ys ++ t) := by
      simpa [List.append_assoc] using ht.symm
    have hy : Char.isWhitespace y = false := dropWhile_head_false ht'
    simp [ltrim, List.dropWhile_cons, hy]

theorem pyStrip_idem (l : List Char) : pyStrip (pyStrip l) = pyStrip l := by
  show rtrim (ltrim (rtrim (ltrim l))) = rtrim (ltrim l)
  rw [ltrim_rtrim_ltrim, rtrim_idem]

theorem pyStrip_of_all_ws {l : List Char} (h : ∀ a ∈ l, a.isWhitespace = true) :
    pyStrip l = [] := by
  have h1 : ltrim l = [] := List.dropWhile_eq_nil_iff.mpr h
  simp [pyStrip, h1, rtrim]

theorem mem_of_mem_pyStrip {a : Char} {l : List Char} (h : a ∈ pyStrip l) : a ∈ l := by
  have h1 : pyStrip l <+: ltrim l := by
    rw [pyStrip, rtrim_eq_rdropWhile]
    exact List.rdropWhile_prefix _ _
  have h2 : ltrim l <:+ l := List.dropWhile_suffix _
  exact h2.sublist.mem (h1.sublist.mem h)

theorem ws_not_special {c : Char} (h : c.isWhitespace = true) :
    c ≠ '(' ∧ c ≠ ')' ∧ c ≠ ',' := by
  have : c = ' ' ∨ c = '\t' ∨ c = '\r' ∨ c = '\n' := by
    simpa [Char.isWhitespace, or_assoc] using h
  rcases this with h' | h' | h' | h' <;> subst h' <;> refine ⟨?_, ?_, ?_⟩ <;> decide

theorem pySplit_no_sep {c : Char} {l : List Char} {p : List Char} (hp : p ∈ pySplit c l) :
    c ∉ p := by
  rcases List.mem_cons.mp hp with h | h
  · exact h ▸ (splitOnChar_not_mem_parts c l).1
  · exact (splitOnChar_not_mem_parts c l).2 p h

theorem space_isWhitespace : (' ' : Char).isWhitespace = true := by decide

/-- Re-normalizing the name portion: splitting `N ++ " "` on spaces, dropping
empty tokens and re-joining with underscores gives back a space-free `N`. -/
theorem name_roundtrip {N : List Char} (h : ' ' ∉ N) :
    joinSep ['_'] ((pySplit ' ' (N ++ [' '])).filter (· ≠ [])) = N := by
  have hs : splitOnChar ' ' (N ++ [' ']) = (N, [[]]) := by
    have := splitOnChar_append ([] : List Char) h
    simpa [splitOnChar] using this
  rw [pySplit, hs]
  by_cases hN : N = []
  · subst hN; rfl
  · simp only [List.filter_cons, List.filter_nil]
    rw [if_pos (by simpa using hN), if_neg (by simp)]
    rfl

/-- Re-splitting a joined list of comma-free, already-stripped tokens
(with the surrounding spaces contributed by `" ( "` and `" )"`) and
re-stripping recovers the tokens. -/
theorem tokens_roundtrip :
    ∀ ts : List (List Char), ts ≠ [] → (∀ t ∈ ts, ',' ∉ t ∧ pyStrip t = t) →
      (pySplit ',' (' ' :: (joinSep [',', ' '] ts ++ [' ']))).map pyStrip = ts
  | [], h, _ => absurd rfl h
  | [t], _, hts => by
    have hc : ',' ∉ ' ' :: (joinSep [',', ' '] [t] ++ [' ']) := by
      intro hmem
      rcases List.mem_cons.mp hmem with h | h
      · exact absurd h (by decide)
      · rcases List.mem_append.mp h with h' | h'
        · exact (hts t (List.mem_singleton.mpr rfl)).1 h'
        · exact absurd (List.mem_singleton.mp h') (by decide)
    rw [pySplit, splitOnChar_of_not_mem hc]
    simp only [List.map_cons, List.map_nil]
    rw [show joinSep [',', ' '] [t] = t from rfl,
      pyStrip_cons_ws _ space_isWhitespace, pyStrip_append_ws _ space_isWhitespace,
      (hts t (List.mem_singleton.mpr rfl)).2]
  | t :: t2 :: rest, _, hts => by
    have h1 : ',' ∉ ' ' :: t := by
      intro hmem
      rcases List.mem_cons.mp hmem with h | h
      · exact absurd h (by decide)
      · exact (hts t (List.mem_cons_self _ _)).1 h
    have hX : ' ' :: (joinSep [',', ' '] (t :: t2 :: rest) ++ [' ']) =
        (' ' :: t) ++ ',' :: (' ' :: (joinSep [',', ' '] (t2 :: rest) ++ [' '])) := by
      show ' ' :: ((t ++ [',', ' '] ++ joinSep [',', ' '] (t2 :: rest)) ++ [' ']) = _
      simp [List.append_assoc]
    rw [hX, pySplit, splitOnChar_append _ h1]
    simp only [List.map_cons]
    rw [pyStrip_cons_ws _ space_isWhitespace, (hts t (List.mem_cons_self _ _)).2]
    have ih := tokens_roundtrip (t2 :: rest) (by simp)
      (fun u hu => hts u (List.mem_cons_of_mem _ hu))
    rw [pySplit] at ih
    rw [List.map_cons] at ih
    exact congrArg (t :: ·) ih

/-- C9: normalization is idempotent — whenever `normalize` succeeds on an
input (equivalently, the input contains `'('`), its output is a fixed point
of `normalize`; in particular `normalize (normalize x) = normalize x` on
every well-formed `x`, and already-canonical strings normalize to
themselves. -/
theorem C9_normalize_idempotent {q r : List Char} (h : normalize q = some r) :
    normalize r = some r := by
  rcases hq : pySplit '(' q with _ | ⟨name0, rest⟩
  · exact absurd hq (by simp [pySplit])
  rcases rest with _ | ⟨args0, tail⟩
  · unfold normalize at h
    rw [hq] at h
    exact absurd h (by simp)
  unfold normalize at h
  rw [hq] at h
  set N := joinSep ['_'] ((pySplit ' ' name0).filter (· ≠ [])) with hN
  set ts := (pySplit ',' (args0.filter (· ≠ ')'))).map pyStrip with hts
  set A := joinSep [',', ' '] ts with hA
  have hr : r = N ++ ' ' :: '(' :: ' ' :: (A ++ [' ', ')']) := by
    have := Option.some.inj h
    exact this.symm
  -- characters that cannot occur in the name and args fragments
  have hname0 : name0 ∈ pySplit '(' q := by rw [hq]; exact List.mem_cons_self _ _
  have hargs0 : args0 ∈ pySplit '(' q := by
    rw [hq]; exact List.mem_cons_of_mem _ (List.mem_cons_self _ _)
  have hN_space : ' ' ∉ N := by
    intro hmem
    rcases mem_joinSep hmem with ⟨p, hp, hap⟩ | hsep
    · exact pySplit_no_sep (List.mem_of_mem_filter hp) hap
    · simp at hsep
  have hN_paren : '(' ∉ N := by
    intro hmem
    rcases mem_joinSep hmem with ⟨p, hp, hap⟩ | hsep
    · exact pySplit_no_sep hname0 (mem_of_mem_pySplit (List.mem_of_mem_filter hp) hap)
    · simp at hsep
  have hA_chars : ∀ a ∈ A, a ∈ args0.filter (· ≠ ')') ∨ a = ',' ∨ a = ' ' := by
    intro a ha
    rcases mem_joinSep ha with ⟨t, ht, hat⟩ | hsep
    · obtain ⟨p, hp, rfl⟩ := List.mem_map.mp ht
      exact Or.inl (mem_of_mem_pySplit hp (mem_of_mem_pyStrip hat))
    · right; simpa using hsep
  have hA_paren : '(' ∉ A := by
    intro hmem
    rcases hA_chars _ hmem with hf | hc | hc
    · exact pySplit_no_sep hargs0 (List.mem_of_mem_filter hf)
    · exact absurd hc (by decide)
    · exact absurd hc (by decide)
  have hA_rparen : ∀ a ∈ A, a ≠ ')' := by
    intro a hmem
    rcases hA_chars _ hmem with hf | hc | hc
    · simpa using List.of_mem_filter hf
    · subst hc; decide
    · subst hc; decide
  have hts_props : ∀ t ∈ ts, ',' ∉ t ∧ pyStrip t = t := by
    intro t ht
    obtain ⟨p, hp, rfl⟩ := List.mem_map.mp ht
    exact ⟨fun hc => pySplit_no_sep hp (mem_of_mem_pyStrip hc), pyStrip_idem p⟩
  have hts_ne : ts ≠ [] := by simp [hts, pySplit]
  -- split of the canonical form at its unique '('
  have hl2 : '(' ∉ ' ' :: (A ++ [' ', ')']) := by
    intro hmem
    rcases List.mem_cons.mp hmem with hc | hc
    · exact absurd hc (by decide)
    · rcases List.mem_append.mp hc with hc' | hc'
      · exact hA_paren hc'
      · simp at hc'
  have hl1 : '(' ∉ N ++ [' '] := by
    intro hmem
    rcases List.mem_append.mp hmem with hc | hc
    · exact hN_paren hc
    · simp at hc
  have hps : pySplit '(' r = (N ++ [' ']) :: [' ' :: (A ++ [' ', ')'])] := by
    have hr1 : r = (N ++ [' ']) ++ '(' :: (' ' :: (A ++ [' ', ')'])) := by
      rw [hr]; simp [List.append_assoc]
    rw [pySplit, hr1, splitOnChar_append _ hl1, splitOnChar_of_not_mem hl2]
  -- evaluate the second normalization
  unfold normalize
  rw [hps]
  have hfA : A.filter (· ≠ ')') = A :=
    List.filter_eq_self.mpr (fun a ha => by simpa using hA_rparen a ha)
  have hfilter : (' ' :: (A ++ [' ', ')'])).filter (· ≠ ')') = ' ' :: (A ++ [' ']) := by
    simp only [List.filter_cons, List.filter_append, hfA]
    simp
  show some (joinSep ['_'] ((pySplit ' ' (N ++ [' '])).filter (· ≠ [])) ++
      ' ' :: '(' :: ' ' ::
        (joinSep [',', ' ']
          ((pySplit ',' ((' ' :: (A ++ [' ', ')'])).filter (· ≠ ')'))).map pyStrip) ++
          [' ', ')'])) = some r
  rw [name_roundtrip hN_space, hfilter]
  have htok := tokens_roundtrip ts hts_ne hts_props
  rw [← hA] at htok
  rw [htok, ← hA, hr]

/-! ## Lemmas about the stable sort and the scoring loop -/

theorem mem_insertLT {x y : Nat × FunctionType} {l : List (Nat × FunctionType)} :
    y ∈ insertLT x l ↔ y = x ∨ y ∈ l := by
  induction l with
  | nil => simp [insertLT]
  | cons z zs ih =>
    by_cases hz : z.1 < x.1
    · simp only [insertLT, if_pos hz, List.mem_cons, ih]
      tauto
    · simp only [insertLT, if_neg hz, List.mem_cons]

theorem sorted_insertLT {x : Nat × FunctionType} {l : List (Nat × FunctionType)}
    (h : List.Sorted (fun a b => a.1 ≤ b.1) l) :
    List.Sorted (fun a b => a.1 ≤ b.1) (insertLT x l) := by
  induction l with
  | nil => simp [insertLT]
  | cons z zs ih =>
    rcases List.sorted_cons.mp h with ⟨hz, hzs⟩
    by_cases hlt : z.1 < x.1
    · rw [insertLT, if_pos hlt]
      refine List.sorted_cons.mpr ⟨?_, ih hzs⟩
      intro b hb
      rcases mem_insertLT.mp hb with rfl | hb'
      · exact le_of_lt hlt
      · exact hz b hb'
    · rw [insertLT, if_neg hlt]
      refine List.sorted_cons.mpr ⟨?_, h⟩
      intro b hb
      rcases List.mem_cons.mp hb with rfl | hb'
      · exact le_of_not_lt hlt
      · exact le_trans (le_of_not_lt hlt) (hz b hb')

theorem sorted_isort (l : List (Nat × FunctionType)) :
    List.Sorted (fun a b => a.1 ≤ b.1) (isort l) := by
  induction l with
  | nil => simp [isort]
  | cons x xs ih => exact sorted_insertLT ih

theorem filter_insertLT (x : Nat × FunctionType) (l : List (Nat × FunctionType)) (k : Nat) :
    (insertLT x l).filter (fun p => p.1 == k) =
      if x.1 == k then x :: l.filter (fun p => p.1 == k)
      else l.filter (fun p => p.1 == k) := by
  induction l with
  | nil => by_cases h : (x.1 == k) = true <;> simp [insertLT, List.filter_cons, h]
  | cons z zs ih =>
    by_cases hlt : z.1 < x.1
    · rw [insertLT, if_pos hlt]
      by_cases hx : (x.1 == k) = true
      · have hxk : x.1 = k := by simpa using hx
        have hz : (z.1 == k) = false := by
          have : z.1 ≠ k := by omega
          simpa using this
        rw [if_pos hx] at ih ⊢
        simp [List.filter_cons, hz, ih]
      · rw [if_neg hx] at ih ⊢
        simp [List.filter_cons, ih]
    · rw [insertLT, if_neg hlt]
      by_cases hx : (x.1 == k) = true <;> simp [List.filter_cons, hx]

theorem filter_isort (l : List (Nat × FunctionType)) (k : Nat) :
    (isort l).filter (fun p => p.1 == k) = l.filter (fun p => p.1 == k) := by
  induction l with
  | nil => rfl
  | cons x xs ih =>
    rw [isort, filter_insertLT, List.filter_cons]
    by_cases hx : (x.1 == k) = true
    · rw [if_pos hx, if_pos hx, ih]
    · rw [if_neg hx, if_neg hx, ih]

/-- Rendered signatures always contain `'('`, so their normalization never
fails (the `IndexError` path of `normalize` is unreachable from `sort`). -/
theorem normalize_get_signature (f : FunctionType) :
    ∃ s, normalize (get_signature f) = some s := by
  have hmem : '(' ∈ get_signature f := by
    unfold get_signature
    exact List.mem_append_right _ (List.mem_cons_self _ _)
  have hne := splitOnChar_snd_ne_nil hmem
  obtain ⟨p, ps, hsp⟩ :
      ∃ p ps, (splitOnChar '(' (get_signature f)).2 = p :: ps := by
    cases h2 : (splitOnChar '(' (get_signature f)).2 with
    | nil => exact absurd h2 hne
    | cons p ps => exact ⟨p, ps, rfl⟩
  unfold normalize
  rw [pySplit, hsp]
  exact ⟨_, rfl⟩

/-- The scoring loop never fails and scores each record against the query
exactly as passed. -/
theorem scoreList_eq (q : List Char) (fs : List FunctionType) :
    scoreList q fs =
      some (fs.map fun f => (lev q ((normalize (get_signature f)).getD []), f)) := by
  induction fs with
  | nil => rfl
  | cons f fs ih =>
    obtain ⟨s, hs⟩ := normalize_get_signature f
    rw [scoreList, hs, ih]
    simp [hs]

theorem sort_eq_isort (q : List Char) (fs : List FunctionType) :
    sort q fs =
      some (isort (fs.map fun f => (lev q ((normalize (get_signature f)).getD []), f))) := by
  rw [sort, scoreList_eq]
  rfl

/-- C8 (amended): for an input whose argument-list portion is empty (only
whitespace between the parentheses), `normalize` produces exactly the clean
zero-argument form `name (  )` — the single empty token produced by step 3
joins to the empty string, so no extra blank segment is observable in the
output, contrary to the claim. -/
theorem C8_empty_args_form {nm ws : List Char} (h1 : '(' ∉ nm)
    (h2 : ∀ c ∈ ws, c.isWhitespace = true) :
    normalize (nm ++ '(' :: (ws ++ [')'])) =
      some (joinSep ['_'] ((pySplit ' ' nm).filter (· ≠ [])) ++
        [' ', '(', ' ', ' ', ')']) := by
  have hl2 : '(' ∉ ws ++ [')'] := by
    intro hmem
    rcases List.mem_append.mp hmem with hc | hc
    · exact (ws_not_special (h2 _ hc)).1 rfl
    · simp at hc
  have hps : pySplit '(' (nm ++ '(' :: (ws ++ [')'])) = nm :: [ws ++ [')']] := by
    rw [pySplit, splitOnChar_append _ h1, splitOnChar_of_not_mem hl2]
  unfold normalize
  rw [hps]
  have hws : ws.filter (· ≠ ')') = ws :=
    List.filter_eq_self.mpr (fun a ha => by
      simpa using (ws_not_special (h2 _ ha)).2.1)
  have hf : (ws ++ [')']).filter (· ≠ ')') = ws := by
    rw [List.filter_append, hws]
    simp
  have hcm : ',' ∉ ws := fun hc => (ws_not_special (h2 _ hc)).2.2 rfl
  show some (joinSep ['_'] ((pySplit ' ' nm).filter (· ≠ [])) ++
      ' ' :: '(' :: ' ' ::
        (joinSep [',', ' '] ((pySplit ',' ((ws ++ [')']).filter (· ≠ ')'))).map pyStrip) ++
          [' ', ')'])) = _
  rw [hf, show pySplit ',' ws = [ws] from by rw [pySplit, splitOnChar_of_not_mem hcm]]
  simp only [List.map_cons, List.map_nil, pyStrip_of_all_ws h2]
  rfl

/-! ## Lemmas about the indexer -/

theorem endsWithPy_iff (l : List Char) :
    endsWithPy l = true ↔ ∃ pre, l = pre ++ ['p', 'y'] := by
  constructor
  · intro h
    unfold endsWithPy at h
    split at h
    · rename_i tail heq
      refine ⟨tail.reverse, ?_⟩
      rw [← List.reverse_reverse l, heq]
      simp
    · exact absurd h (by simp)
  · rintro ⟨pre, rfl⟩
    have hrev : (pre ++ ['p', 'y']).reverse = 'y' :: 'p' :: pre.reverse := by simp
    unfold endsWithPy
    rw [hrev]
    rfl

/-- The spec's claimed eligibility suffix test: the file name ends in the
extension `.py` (dot included). -/
def endsWithDotPy (l : List Char) : Bool :=
  match l.reverse with
  | 'y' :: 'p' :: '.' :: _ => true
  | _ => false

theorem endsWithDotPy_iff (l : List Char) :
    endsWithDotPy l = true ↔ ∃ pre, l = pre ++ ['.', 'p', 'y'] := by
  constructor
  · intro h
    unfold endsWithDotPy at h
    split at h
    · rename_i tail heq
      refine ⟨tail.reverse, ?_⟩
      rw [← List.reverse_reverse l, heq]
      simp
    · exact absurd h (by simp)
  · rintro ⟨pre, rfl⟩
    have hrev : (pre ++ ['.', 'p', 'y']).reverse = 'y' :: 'p' :: '.' :: pre.reverse := by simp
    unfold endsWithDotPy
    rw [hrev]
    rfl

/-- Amended eligibility, phrased from the spec with the two corrections the
code forces: the suffix test is the two characters `py` (no dot required),
and the excluded "path segments" are all `'/'`-split segments of the
traversal path — the file's own name and the `baseDir` prefix included. -/
def spec_selected (excl : List (List Char)) (e : FileEntry) : Prop :=
  e.isFile = true ∧ (∃ pre, e.path = pre ++ ['p', 'y']) ∧
    ∀ d ∈ pySplit '/' e.path, ¬(d ∈ excl ∨ d ∈ STDLIB_IGNORE)

instance (excl : List (List Char)) (e : FileEntry) : Decidable (spec_selected excl e) := by
  unfold spec_selected
  have : Decidable (∃ pre, e.path = pre ++ ['p', 'y']) :=
    decidable_of_iff _ (endsWithPy_iff e.path)
  exact instDecidableAnd

/-- The condition the code tests at pygoogle.py:110-111 is exactly the
amended eligibility predicate. -/
theorem selected_iff (excl : List (List Char)) (e : FileEntry) :
    (e.isFile = true ∧ want_to_continue (excl ++ STDLIB_IGNORE) e.path) ↔
      spec_selected excl e := by
  unfold want_to_continue spec_selected
  rw [endsWithPy_iff]
  constructor
  · rintro ⟨h1, h2, h3⟩
    exact ⟨h1, h2, fun d hd => by
      have := h3 d hd
      simpa [List.mem_append] using this⟩
  · rintro ⟨h1, h2, h3⟩
    exact ⟨h1, h2, fun d hd => by
      have := h3 d hd
      simpa [List.mem_append] using this⟩

/-- A parse failure on any eligible entry makes the whole scan fail. -/
theorem scanFiles_error {ign : List (List Char)} {es : List FileEntry}
    (h : ∃ e ∈ es, (e.isFile = true ∧ want_to_continue ign e.path) ∧
      ∃ u, e.parsed = .error u) :
    scanFiles ign es = .error () := by
  induction es with
  | nil =>
    obtain ⟨e, he, _⟩ := h
    exact absurd he (List.not_mem_nil e)
  | cons e es ih =>
    obtain ⟨e', he', hcond, u, herr⟩ := h
    by_cases hc : e.isFile = true ∧ want_to_continue ign e.path
    · rw [scanFiles, if_pos hc]
      cases hp : e.parsed with
      | error v => cases v; rfl
      | ok nodes =>
        have he'' : e' ∈ es := by
          rcases List.mem_cons.mp he' with rfl | hm
          · rw [hp] at herr; exact absurd herr (by simp)
          · exact hm
        rw [ih ⟨e', he'', hcond, u, herr⟩]
    · rw [scanFiles, if_neg hc]
      have he'' : e' ∈ es := by
        rcases List.mem_cons.mp he' with rfl | hm
        · exact absurd hcond hc
        · exact hm
      exact ih ⟨e', he'', hcond, u, herr⟩

/-- When every eligible entry parses, the scan succeeds and extracts from
exactly the eligible entries, in traversal order. -/
theorem scanFiles_ok {excl : List (List Char)} {es : List FileEntry}
    (h : ∀ e ∈ es, spec_selected excl e → ∃ ns, e.parsed = .ok ns) :
    scanFiles (excl ++ STDLIB_IGNORE) es = .ok (es.flatMap fun e =>
      if spec_selected excl e then
        (match e.parsed with
          | .ok ns => extract_nodes ns e.path
          | .error _ => [])
      else []) := by
  induction es with
  | nil => rfl
  | cons e es ih =>
    have ihe := ih (fun e' he' => h e' (List.mem_cons_of_mem _ he'))
    rw [List.flatMap_cons, scanFiles]
    by_cases hc : e.isFile = true ∧ want_to_continue (excl ++ STDLIB_IGNORE) e.path
    · have hsel : spec_selected excl e := (selected_iff excl e).mp hc
      obtain ⟨ns, hns⟩ := h e (List.mem_cons_self _ _) hsel
      rw [if_pos hc, hns, ihe, if_pos hsel]
    · have hsel : ¬spec_selected excl e := fun hs => hc ((selected_iff excl e).mpr hs)
      rw [if_neg hc, ihe, if_neg hsel, List.nil_append]

/-! ## Claims -/

/-- C1 counterexample: `sort` does not normalize its query.  For the query
`"f(x)"` and a record rendering to `f(x)`, the claimed score
`lev (normalize "f(x)") (normalize "f(x)")` is `0`, but `sort` scores the
record with the raw query, giving `lev "f(x)" "f ( x )" = 3`, so the output
is not the claimed pair list. -/
theorem C1_counterexample :
    ¬(sort "f(x)".toList [⟨"f".toList, ["x".toList], "a".toList, 1⟩] =
      some [(lev ((normalize "f(x)".toList).getD [])
        ((normalize (get_signature ⟨"f".toList, ["x".toList], "a".toList, 1⟩)).getD []),
        ⟨"f".toList, ["x".toList], "a".toList, 1⟩)]) := by
  decide

/-- C1 (amended): `sort` scores every record as the Levenshtein distance
between the query exactly as passed (not re-normalized) and the normalized
rendered signature of the record, then stable-sorts ascending by score.
(The CLI pre-normalizes the query before calling `sort`, so the end-to-end
pipeline matches the original claim only for already-normalized queries.) -/
theorem C1_sort_scores_raw_query (q : List Char) (fs : List FunctionType) :
    sort q fs =
      some (isort (fs.map fun f => (lev q ((normalize (get_signature f)).getD []), f))) :=
  sort_eq_isort q fs

/-- C2: if the cache document exists when `index_folder` is called, the
cached list is returned verbatim and the process state is unchanged; the
file system, the base folder and the ignore argument do not appear on the
right-hand side, so they are ignored entirely — even if the directory
contents changed since the cache was written. -/
theorem C2_cache_short_circuit (fs : FileSystem) (base : List Char)
    (arg : Option (List (List Char))) (st : PyState) (c : List FunctionType)
    (h : st.cache = some c) :
    index_folder fs base arg st = (.ok c, st) := by
  obtain ⟨cc, di⟩ := st
  obtain rfl : cc = some c := h
  cases arg <;> simp [index_folder, index_folder_core]

/-- Witness for C2 at a concrete cached state, file system and argument. -/
theorem C2_cache_short_circuit_witness :
    (PyState.mk (some [⟨"g".toList, [], "b/a.py".toList, 2⟩]) []).cache =
      some [⟨"g".toList, [], "b/a.py".toList, 2⟩] ∧
    index_folder (fun _ => [⟨"b/new.py".toList, true, .ok [.funcDef "h".toList [] 5]⟩])
        "b".toList none (PyState.mk (some [⟨"g".toList, [], "b/a.py".toList, 2⟩]) []) =
      (.ok [⟨"g".toList, [], "b/a.py".toList, 2⟩],
        PyState.mk (some [⟨"g".toList, [], "b/a.py".toList, 2⟩]) []) :=
  ⟨rfl, C2_cache_short_circuit _ _ _ _ _ rfl⟩

/-- C3: the output of `sort` is sorted ascending by score, and ties are
broken by stable input order: for every score `k`, the sub-list of output
pairs with score `k` equals the sub-list of scored input pairs with score
`k`, in input order — no secondary key. -/
theorem C3_sorted_and_stable (q : List Char) (fs : List FunctionType)
    (l : List (Nat × FunctionType)) (h : sort q fs = some l) :
    List.Sorted (fun a b => a.1 ≤ b.1) l ∧
    ∀ k : Nat, l.filter (fun p => p.1 == k) =
      (fs.map fun f => (lev q ((normalize (get_signature f)).getD []), f)).filter
        (fun p => p.1 == k) := by
  have hs := sort_eq_isort q fs
  rw [h] at hs
  obtain rfl : l = isort (fs.map fun f =>
      (lev q ((normalize (get_signature f)).getD []), f)) := Option.some.inj hs
  exact ⟨sorted_isort _, fun k => filter_isort _ k⟩

/-- Witness for C3 at a concrete query and record list. -/
theorem C3_sorted_and_stable_witness :
    List.Sorted (fun a b : Nat × FunctionType => a.1 ≤ b.1)
      [(3, ⟨"f".toList, ["x".toList], "a".toList, 1⟩)] ∧
    ∀ k : Nat,
      ([(3, ⟨"f".toList, ["x".toList], "a".toList, 1⟩)] :
          List (Nat × FunctionType)).filter (fun p => p.1 == k) =
      (([⟨"f".toList, ["x".toList], "a".toList, 1⟩] : List FunctionType).map fun f =>
        (lev "f(x)".toList ((normalize (get_signature f)).getD []), f)).filter
        (fun p => p.1 == k) :=
  C3_sorted_and_stable "f(x)".toList [⟨"f".toList, ["x".toList], "a".toList, 1⟩]
    [(3, ⟨"f".toList, ["x".toList], "a".toList, 1⟩)] (by decide)

/-- C4: on a fresh (cache-absent) run, a parse failure on any eligible file
makes the whole indexing call fail, and no cache document is written: the
run is atomic with respect to the cache. -/
theorem C4_parse_error_aborts (fs : FileSystem) (base : List Char)
    (arg : Option (List (List Char))) (st : PyState) (e : FileEntry)
    (hcache : st.cache = none) (hmem : e ∈ fs base)
    (hcond : e.isFile = true ∧
      want_to_continue ((arg.getD st.defaultIgnore) ++ STDLIB_IGNORE) e.path)
    (herr : ∃ u, e.parsed = .error u) :
    (index_folder fs base arg st).1 = .error () ∧
    (index_folder fs base arg st).2.cache = none := by
  obtain ⟨cc, di⟩ := st
  obtain rfl : cc = none := hcache
  cases arg with
  | none =>
    have hscan : scanFiles (di ++ STDLIB_IGNORE) (fs base) = .error () :=
      scanFiles_error ⟨e, hmem, hcond, herr⟩
    simp [index_folder, index_folder_core, hscan]
  | some l =>
    have hscan : scanFiles (l ++ STDLIB_IGNORE) (fs base) = .error () :=
      scanFiles_error ⟨e, hmem, hcond, herr⟩
    simp [index_folder, index_folder_core, hscan]

/-- Witness for C4: a single unparsable eligible file aborts the run and
leaves the cache absent. -/
theorem C4_parse_error_aborts_witness :
    (index_folder (fun _ => [⟨"b/a.py".toList, true, .error ()⟩]) "b".toList none
        (PyState.mk none [])).1 = .error () ∧
    (index_folder (fun _ => [⟨"b/a.py".toList, true, .error ()⟩]) "b".toList none
        (PyState.mk none [])).2.cache = none :=
  C4_parse_error_aborts _ _ _ _ ⟨"b/a.py".toList, true, .error ()⟩ rfl
    (by decide) (by decide) ⟨(), rfl⟩

/-- C5: for every input containing no `'('`, `normalize` fails (the
`IndexError` the spec names `MalformedSignature`), and the failure is the
function's result — nothing in `normalize` recovers it, so it propagates to
the caller. -/
theorem C5_normalize_requires_paren {q : List Char} (h : '(' ∉ q) :
    normalize q = none := by
  unfold normalize
  rw [show pySplit '(' q = [q] from by rw [pySplit, splitOnChar_of_not_mem h]]

/-- Witness for C5 at a concrete paren-free input. -/
theorem C5_normalize_requires_paren_witness :
    ('(' ∉ "mainloop".toList) ∧ normalize "mainloop".toList = none :=
  ⟨by decide, C5_normalize_requires_paren (by decide)⟩

/-- C6: extraction emits no record whose name starts with `"__"` (so
`__init__` never appears), while a single-underscore name such as
`_private` does appear — only the double-underscore prefix is excluded. -/
theorem C6_extract_excludes_dunder :
    (∀ (ns : List AstNode) (p : List Char) (r : FunctionType),
        r ∈ extract_nodes ns p → startsDunder r.name = false) ∧
    (∀ p : List Char,
        extract_nodes
          [.funcDef "__init__".toList ["self".toList] 1, .funcDef "_private".toList [] 3] p =
        [⟨"_private".toList, [], p, 3⟩]) := by
  constructor
  · intro ns p r hr
    unfold extract_nodes at hr
    rw [List.mem_filterMap] at hr
    obtain ⟨n, hn, hsome⟩ := hr
    cases n with
    | other =>
      have h0 : (none : Option FunctionType) = some r := hsome
      simp at h0
    | funcDef name args ln =>
      have h1 : (if startsDunder name = true then none
          else some (get_function_from_node name args ln p)) = some r := hsome
      by_cases hd : startsDunder name = true
      · rw [if_pos hd] at h1
        simp at h1
      · rw [if_neg hd] at h1
        obtain rfl : get_function_from_node name args ln p = r := Option.some.inj h1
        simpa [get_function_from_node] using hd
  · intro p
    rfl

/-- Witness for C6: a concrete `_private` record produced by extraction has
no double-underscore prefix. -/
theorem C6_extract_excludes_dunder_witness :
    startsDunder (FunctionType.mk "_private".toList [] "f.py".toList 3).name = false :=
  C6_extract_excludes_dunder.1 [.funcDef "_private".toList [] 3] "f.py".toList
    ⟨"_private".toList, [], "f.py".toList, 3⟩ (by decide)

/-- C7 counterexample: eligibility does not require the `.py` extension.
The file `b/happy` (no dot before `py`) is selected and extracted on a
fresh run, although its name does not end in `.py`. -/
theorem C7_counterexample :
    (index_folder (fun _ => [⟨"b/happy".toList, true, .ok [.funcDef "g".toList [] 2]⟩])
        "b".toList none (PyState.mk none [])).1 =
      .ok [⟨"g".toList, [], "b/happy".toList, 2⟩] ∧
    endsWithDotPy "b/happy".toList = false := by
  decide

/-- C7 (amended): on a fresh run a file is selected for extraction exactly
when its name ends in the two characters `py` (the dot is not required)
and no `'/'`-segment of its traversal path — the file's own name and the
base-folder prefix included — belongs to `excludeDirs ∪ STDLIB_IGNORE`. -/
theorem C7_eligibility (excl : List (List Char)) (es : List FileEntry)
    (h : ∀ e ∈ es, spec_selected excl e → ∃ ns, e.parsed = .ok ns) :
    scanFiles (excl ++ STDLIB_IGNORE) es = .ok (es.flatMap fun e =>
      if spec_selected excl e then
        (match e.parsed with
          | .ok ns => extract_nodes ns e.path
          | .error _ => [])
      else []) ∧
    ∀ e : FileEntry,
      (e.isFile = true ∧ want_to_continue (excl ++ STDLIB_IGNORE) e.path) ↔
        spec_selected excl e :=
  ⟨scanFiles_ok h, fun e => selected_iff excl e⟩

/-- Witness for C7 on a concrete entry list: one eligible file, one file in
an ignored directory. -/
theorem C7_eligibility_witness :
    scanFiles ([] ++ STDLIB_IGNORE)
      [⟨"b/a.py".toList, true, .ok [.funcDef "g".toList [] 2]⟩,
       ⟨"b/test/c.py".toList, true, .ok [.funcDef "h".toList [] 4]⟩] =
      .ok ([⟨"b/a.py".toList, true, .ok [.funcDef "g".toList [] 2]⟩,
        ⟨"b/test/c.py".toList, true, .ok [.funcDef "h".toList [] 4]⟩].flatMap fun e =>
        if spec_selected [] e then
          (match e.parsed with
            | .ok ns => extract_nodes ns e.path
            | .error _ => [])
        else []) ∧
    ∀ e : FileEntry,
      (e.isFile = true ∧ want_to_continue ([] ++ STDLIB_IGNORE) e.path) ↔
        spec_selected [] e :=
  C7_eligibility []
    [⟨"b/a.py".toList, true, .ok [.funcDef "g".toList [] 2]⟩,
     ⟨"b/test/c.py".toList, true, .ok [.funcDef "h".toList [] 4]⟩]
    (fun e he _ => by
      rcases List.mem_cons.mp he with rfl | he2
      · exact ⟨_, rfl⟩
      · rcases List.mem_cons.mp he2 with rfl | he3
        · exact ⟨_, rfl⟩
        · exact absurd he3 (List.not_mem_nil _))

/-- C8 counterexample: on the empty-argument input `f()` the output of
`normalize` is exactly the clean zero-argument form `f (  )` — not a form
with an observable extra blank segment distinct from it, as the claim
asserts. -/
theorem C8_counterexample :
    normalize "f()".toList = some "f (  )".toList := by
  decide

/-- Witness for C8 (amended) at a concrete name and whitespace filling. -/
theorem C8_empty_args_form_witness :
    ('(' ∉ "f".toList) ∧ (∀ c ∈ "  ".toList, c.isWhitespace = true) ∧
    normalize ("f".toList ++ '(' :: ("  ".toList ++ [')'])) =
      some (joinSep ['_'] ((pySplit ' ' "f".toList).filter (· ≠ [])) ++
        [' ', '(', ' ', ' ', ')']) :=
  ⟨by decide, by decide, C8_empty_args_form (by decide) (by decide)⟩

/-- Witness for C9 at a concrete well-formed input. -/
theorem C9_normalize_idempotent_witness :
    normalize "is zipfile( filename )".toList = some "is_zipfile ( filename )".toList ∧
    normalize "is_zipfile ( filename )".toList = some "is_zipfile ( filename )".toList :=
  ⟨by decide,
    @C9_normalize_idempotent "is zipfile( filename )".toList
      "is_zipfile ( filename )".toList (by decide)⟩

/-- C10 counterexample: not every argument-less call grows the shared
default ignore list — a call that finds the cache present returns before
the in-place `+=`, leaving the default list untouched. -/
theorem C10_counterexample :
    ¬((index_folder (fun _ => []) "b".toList none
        (PyState.mk (some []) ["x".toList])).2.defaultIgnore =
      ["x".toList] ++ STDLIB_IGNORE) := by
  decide

/-- C10 (amended): every argument-less call that passes the cache check
(cache absent) appends `STDLIB_IGNORE` in place to the single shared
default list before scanning — the scan runs with the grown list, and the
grown list persists in the process state, so such calls observe the
accumulation of all previous fresh argument-less calls. -/
theorem C10_default_ignore_grows (fs : FileSystem) (base : List Char) (st : PyState)
    (h : st.cache = none) :
    (index_folder fs base none st).1 =
      scanFiles (st.defaultIgnore ++ STDLIB_IGNORE) (fs base) ∧
    (index_folder fs base none st).2.defaultIgnore =
      st.defaultIgnore ++ STDLIB_IGNORE := by
  obtain ⟨cc, di⟩ := st
  obtain rfl : cc = none := h
  unfold index_folder index_folder_core
  cases hs : scanFiles (di ++ STDLIB_IGNORE) (fs base) <;> simp [hs]

/-- Witness for C10 (amended) at a concrete fresh state. -/
theorem C10_default_ignore_grows_witness :
    (index_folder (fun _ => []) "b".toList none (PyState.mk none ["x".toList])).1 =
      scanFiles (["x".toList] ++ STDLIB_IGNORE) ((fun _ => ([] : List FileEntry)) "b".toList) ∧
    (index_folder (fun _ => []) "b".toList none (PyState.mk none ["x".toList])).2.defaultIgnore =
      ["x".toList] ++ STDLIB_IGNORE :=
  C10_default_ignore_grows (fun _ => []) "b".toList (PyState.mk none ["x".toList]) rfl

end PPI
